import Mathlib

/-!
Shallow embedding of the RAG subsystem in `src/rag.py` (chunk store,
chunker, batched embedding, index build, ingestion, search), together with
theorems settling the specification claims.

Modelling conventions:
* Python strings are modelled as `List Char` (sequences of code points);
  `len` is `List.length`, slicing `text[a:b]` is `(·.drop a).take (b - a)`,
  and `str.strip()` is `pyStrip`.
* The embedding model (`SentenceTransformer.encode`) and the FAISS index
  search are external collaborators; they enter as function parameters
  (`E` for batch encoding, `I` for index lookup), exactly at the call
  sites where `rag.py` invokes them.
* The persisted state (the chunk-store file and the FAISS index file) is a
  `RagState`; `none` means the file does not exist.
* Exceptions are `Except String`; `ingest_text` returns the (possibly
  updated) state paired with the Python return value or raised message.
-/

namespace Rag

/-- A chunk record, as written to the chunk store: `{"source": ..., "text": ...}`
(from `chunk_text`, src/rag.py lines 103-106). -/
structure Chunk where
  source : String
  text : List Char
deriving DecidableEq, Repr, Inhabited

/-- Embedding vectors (rows of the numpy matrices in `rag.py`). -/
abbrev Vec := List ℝ

/-- Python `str.strip()`: remove leading and trailing whitespace. -/
def pyStrip (l : List Char) : List Char :=
  ((l.dropWhile Char.isWhitespace).reverse.dropWhile Char.isWhitespace).reverse

/-- Constant `MAX_TEXT_LENGTH` from `chunk_text` (src/rag.py line 86). -/
def MAX_TEXT_LENGTH : Nat := 200000

/-- The `ValueError` message raised by `chunk_text` for oversized input
(src/rag.py lines 89-93): it interpolates the actual size and the limit. -/
def oversizeMsg (n : Nat) : String :=
  "Text too large (" ++ toString n ++ " chars). " ++
  "Maximum allowed is " ++ toString MAX_TEXT_LENGTH ++ " characters. " ++
  "Please ingest smaller sections."

/-- The `while start < text_len and len(chunks) < max_chunks` loop of
`chunk_text` (src/rag.py lines 95-110). The fuel argument is
`max_chunks - len(chunks)`: each iteration appends exactly one chunk, so the
loop condition `len(chunks) < max_chunks` is the fuel being positive.
`end = min(text_len, start + chunk_size)`, the slice `text[start:end]`, and
`start = end` are modelled verbatim. -/
def chunkLoop (chars : List Char) (source : String) (chunk_size : Nat) :
    Nat → Nat → List Chunk
  | _, 0 => []
  | start, r + 1 =>
    if start < chars.length then
      let e := min chars.length (start + chunk_size)
      { source := source, text := (chars.drop start).take (e - start) } ::
        chunkLoop chars source chunk_size e r
    else []

/-- Model of `chunk_text(text, source, chunk_size, max_chunks)` (src/rag.py lines
67-110): strip, empty check, hard size limit, then the chunking loop.
The Python defaults are `chunk_size=800, max_chunks=200`. -/
def chunk_text (text : List Char) (source : String)
    (chunk_size max_chunks : Nat) : Except String (List Chunk) :=
  let t := pyStrip text
  if t = [] then .ok []
  else if MAX_TEXT_LENGTH < t.length then .error (oversizeMsg t.length)
  else .ok (chunkLoop t source chunk_size 0 max_chunks)

/-- The `1e-12` epsilon added to the norm denominator in `_normalize`
(src/rag.py line 38). -/
noncomputable def eps : ℝ := 1 / 10 ^ 12

/-- The L2 norm of one row: `np.linalg.norm(v)` = sqrt of the sum of squares. -/
noncomputable def l2norm (v : Vec) : ℝ :=
  Real.sqrt ((v.map fun x => x ^ 2).sum)

/-- One row of `_normalize`: divide every entry by (that row's norm + 1e-12). -/
noncomputable def normalizeRow (v : Vec) : Vec :=
  v.map fun x => x / (l2norm v + eps)

/-- Model of `_normalize(v)` (src/rag.py lines 37-39): with `axis=1, keepdims=True`
each row is divided by its own L2 norm plus `1e-12`. -/
noncomputable def _normalize (m : List Vec) : List Vec :=
  m.map normalizeRow

/-- Constant `BATCH_SIZE` from `build_index` (src/rag.py line 130). -/
def BATCH_SIZE : Nat := 32

/-- The batched-encoding loop of `build_index` (src/rag.py lines 131-142):
`for i in range(0, len(texts), BATCH_SIZE)` encodes `texts[i:i+BATCH_SIZE]`
and the per-batch outputs are stacked in order (`np.vstack`).
`E` is the external `embedder.encode`, taking a batch of texts to a matrix
with one row per text. -/
noncomputable def encodeBatches (E : List (List Char) → List Vec) :
    List (List Char) → List Vec
  | [] => []
  | t :: ts =>
    E ((t :: ts).take BATCH_SIZE) ++ encodeBatches E ((t :: ts).drop BATCH_SIZE)
termination_by ts => ts.length
decreasing_by
  simp only [List.length_drop, List.length_cons, BATCH_SIZE]
  omega

/-- The persisted state of the subsystem: contents of the chunk-store file
(`CHUNKS_PATH`) and of the FAISS index file (`FAISS_INDEX_PATH`), with
`none` meaning the file does not exist. The index file is modelled by its
rows (the vectors added to `IndexFlatIP`). -/
structure RagState where
  chunksFile : Option (List Chunk)
  indexFile : Option (List Vec)

/-- Model of `load_chunks()` (src/rag.py lines 45-53): empty list when the file is
missing, otherwise the stored records in order. -/
def load_chunks (s : RagState) : List Chunk :=
  s.chunksFile.getD []

/-- Model of `save_chunks(chunks)` (src/rag.py lines 56-61): overwrite the chunk
store file with the given records. -/
def save_chunks (s : RagState) (chunks : List Chunk) : RagState :=
  { s with chunksFile := some chunks }

/-- Model of `build_index(chunks)` (src/rag.py lines 116-149): no-op on an empty
chunk list; otherwise encode all chunk texts in batches, L2-normalize the
stacked matrix, add every row to a fresh `IndexFlatIP`, and persist it. -/
noncomputable def build_index (E : List (List Char) → List Vec)
    (s : RagState) (chunks : List Chunk) : RagState :=
  if chunks = [] then s
  else
    { s with indexFile := some (_normalize (encodeBatches E (chunks.map (·.text)))) }

/-- Model of `ingest_text(text, source)` (src/rag.py lines 155-168): load the store,
chunk the new text (a `ValueError` is re-raised as `RuntimeError` with the
same message, before any write happens), append, persist, rebuild the
index, return the count of new chunks. The result pairs the state of the
files after the call with the returned value or raised message. -/
noncomputable def ingest_text (E : List (List Char) → List Vec)
    (s : RagState) (text : List Char) (source : String) :
    RagState × Except String Nat :=
  let chunks := load_chunks s
  match chunk_text text source 800 200 with
  | .error e => (s, .error e)
  | .ok new_chunks =>
    let combined := chunks ++ new_chunks
    let s1 := save_chunks s combined
    let s2 := build_index E s1 combined
    (s2, .ok new_chunks.length)

/-- A search result record `{"score": ..., "source": ..., "text": ...}`
(src/rag.py lines 199-203). -/
structure SearchResult where
  score : ℝ
  source : String
  text : List Char

/-- The hydration loop of `search` (src/rag.py lines 193-204): for each
`(score, idx)` pair produced by the index, skip it when `idx < 0 or
idx >= len(chunks)`, otherwise emit a result record, in order. FAISS
returns positions as (possibly negative) integers. -/
def hydrate (chunks : List Chunk) (pairs : List (ℝ × Int)) : List SearchResult :=
  pairs.filterMap fun p =>
    if p.2 < 0 ∨ (chunks.length : Int) ≤ p.2 then none
    else
      some { score := p.1
             source := (chunks.getD p.2.toNat default).source
             text := (chunks.getD p.2.toNat default).text }

/-- Model of `search(query, top_k)` (src/rag.py lines 174-205): empty result when the
store is empty or the index file is missing; otherwise read the index,
encode the one-element batch `[query]`, normalize it, look up `top_k`
nearest neighbours (`I` is the external `faiss` index search over the
persisted rows), and hydrate. -/
noncomputable def search (E : List (List Char) → List Vec)
    (I : List Vec → List Vec → Nat → List (ℝ × Int))
    (s : RagState) (query : List Char) (top_k : Nat) : List SearchResult :=
  let chunks := load_chunks s
  if chunks = [] ∨ s.indexFile = none then []
  else
    let rows := s.indexFile.getD []
    let q := _normalize (E [query])
    hydrate chunks (I rows q top_k)

/-- States of the persisted files producible by the subsystem itself,
starting from no files and applying `ingest_text` calls (the only writer;
`search` never writes). -/
inductive Reachable : RagState → Prop
  | init : Reachable { chunksFile := none, indexFile := none }
  | step (s : RagState) (E : List (List Char) → List Vec)
      (text : List Char) (source : String) :
      Reachable s → Reachable (ingest_text E s text source).1

/-- Number of rows of the persisted index (`index.size()`); 0 when no index
file exists. -/
def indexSize (s : RagState) : Nat :=
  (s.indexFile.getD []).length

/-- The store-empty/index-empty relationship maintained by the subsystem:
when the chunk store loads as empty, the persisted index has no rows. -/
def StoreIndexInv (s : RagState) : Prop :=
  load_chunks s = [] → indexSize s = 0

/-- Constant `STORAGE_DIR` from src/config.py (an absolute directory path). -/
def STORAGE_DIR : String := "/app/storage"

/-- Constant `CHUNKS_PATH = os.path.join(STORAGE_DIR, "chunks.jsonl")` (src/config.py). -/
def CHUNKS_PATH : String := "/app/storage/chunks.jsonl"

/-- File-system operations relevant to `save_chunks`. `openTrunc p` is
`open(p, "w")` (truncate the file at path `p`, creating it); `writeRecord`
is one `f.write(json.dumps(c) + "\n")` appending one record; `rename` is
`os.rename`/`os.replace` (present in the vocabulary so that the absence of
a write-to-temp-then-rename discipline is expressible). -/
inductive FsOp where
  | makedirs (path : String)
  | openTrunc (path : String)
  | writeRecord (path : String) (c : Chunk)
  | rename (src dst : String)
deriving DecidableEq, Repr

/-- Whether an operation is a rename. -/
def FsOp.isRename : FsOp → Bool
  | .rename _ _ => true
  | _ => false

/-- The path an operation touches (destination path for a rename). -/
def FsOp.path : FsOp → String
  | .makedirs p => p
  | .openTrunc p => p
  | .writeRecord p _ => p
  | .rename _ dst => dst

/-- The exact sequence of file-system operations performed by
`save_chunks(chunks)` (src/rag.py lines 56-61): `os.makedirs(STORAGE_DIR)`,
then `open(CHUNKS_PATH, "w")` truncating the store in place, then one write
per record, in order. No temporary file and no rename is involved. -/
def save_chunks_trace (chunks : List Chunk) : List FsOp :=
  FsOp.makedirs STORAGE_DIR :: FsOp.openTrunc CHUNKS_PATH ::
    chunks.map (FsOp.writeRecord CHUNKS_PATH)

/-- A file system mapping paths to parsed chunk-file contents (`none` =
no file at that path). -/
def Fs : Type := String → Option (List Chunk)

/-- Effect of one operation on the file system. -/
def applyOp (fs : Fs) : FsOp → Fs
  | .makedirs _ => fs
  | .openTrunc p => fun q => if q = p then some [] else fs q
  | .writeRecord p c => fun q => if q = p then some ((fs p).getD [] ++ [c]) else fs q
  | .rename a b => fun q => if q = b then fs a else if q = a then none else fs q

/-- Run a sequence of operations; a crash after `k` operations is modelled
by running only `ops.take k`. -/
def runOps (fs : Fs) (ops : List FsOp) : Fs :=
  ops.foldl applyOp fs

/-! ## Lemmas about the chunking loop -/

/-- Concatenating the texts of the chunks produced from position `start`
with fuel `r` yields the next `chunk_size * r` characters of the input. -/
theorem chunkLoop_join (t : List Char) (src : String) (C : Nat) :
    ∀ (r start : Nat),
      ((chunkLoop t src C start r).map Chunk.text).flatten =
        (t.drop start).take (C * r) := by
  intro r
  induction r with
  | zero => intro start; simp [chunkLoop]
  | succ r ih =>
    intro start
    by_cases h : start < t.length
    · simp only [chunkLoop, if_pos h, List.map_cons, List.flatten_cons, ih]
      have hsplit : C * (r + 1) = C + C * r := by ring
      rw [hsplit, List.take_add, List.drop_drop]
      congr 1
      · rw [List.take_eq_take]
        simp only [List.length_take, List.length_drop]
        omega
      · by_cases h2 : start + C ≤ t.length
        · rw [min_eq_right h2]
        · rw [List.drop_of_length_le (by omega),
            List.drop_of_length_le (le_of_not_le h2)]
    · simp only [chunkLoop, if_neg h, List.map_nil, List.flatten_nil]
      rw [List.drop_of_length_le (by omega), List.take_nil]

/-- When more than `chunk_size * r` characters remain, the loop runs its
fuel out and produces exactly `r` chunks. -/
theorem chunkLoop_length_of_overflow (t : List Char) (src : String) (C : Nat) :
    ∀ (r start : Nat), start + C * r < t.length →
      (chunkLoop t src C start r).length = r := by
  intro r
  induction r with
  | zero => intro start _; simp [chunkLoop]
  | succ r ih =>
    intro start h
    rw [Nat.mul_succ] at h
    have h1 : start < t.length := by omega
    simp only [chunkLoop, if_pos h1, List.length_cons]
    rw [ih (min t.length (start + C)) (by omega)]

/-- Every produced chunk carries the caller's source label. -/
theorem chunkLoop_source (t : List Char) (src : String) (C : Nat) :
    ∀ (r start : Nat) (c : Chunk), c ∈ chunkLoop t src C start r →
      c.source = src := by
  intro r
  induction r with
  | zero => intro start c hc; simp [chunkLoop] at hc
  | succ r ih =>
    intro start c hc
    by_cases h : start < t.length
    · simp only [chunkLoop, if_pos h, List.mem_cons] at hc
      rcases hc with hc | hc
      · rw [hc]
      · exact ih _ c hc
    · simp [chunkLoop, if_neg h] at hc

/-- Every produced chunk text has at most `chunk_size` characters. -/
theorem chunkLoop_le (t : List Char) (src : String) (C : Nat) :
    ∀ (r start : Nat) (c : Chunk), c ∈ chunkLoop t src C start r →
      c.text.length ≤ C := by
  intro r
  induction r with
  | zero => intro start c hc; simp [chunkLoop] at hc
  | succ r ih =>
    intro start c hc
    by_cases h : start < t.length
    · simp only [chunkLoop, if_pos h, List.mem_cons] at hc
      rcases hc with hc | hc
      · rw [hc]
        simp only [List.length_take, List.length_drop]
        omega
      · exact ih _ c hc
    · simp [chunkLoop, if_neg h] at hc

/-- A nonempty loop result means the loop was entered: the position was
in range and there was fuel. -/
theorem chunkLoop_ne_nil (t : List Char) (src : String) (C r start : Nat)
    (h : chunkLoop t src C start r ≠ []) : start < t.length ∧ 0 < r := by
  match r with
  | 0 => simp [chunkLoop] at h
  | r + 1 =>
    by_cases h1 : start < t.length
    · exact ⟨h1, Nat.succ_pos r⟩
    · simp [chunkLoop, if_neg h1] at h

/-- Every chunk except possibly the last has exactly `chunk_size`
characters. -/
theorem chunkLoop_dropLast (t : List Char) (src : String) (C : Nat) :
    ∀ (r start : Nat) (c : Chunk), c ∈ (chunkLoop t src C start r).dropLast →
      c.text.length = C := by
  intro r
  induction r with
  | zero => intro start c hc; simp [chunkLoop] at hc
  | succ r ih =>
    intro start c hc
    by_cases h : start < t.length
    · simp only [chunkLoop, if_pos h] at hc
      by_cases hrest : chunkLoop t src C (min t.length (start + C)) r = []
      · rw [hrest] at hc
        simp at hc
      · rw [List.dropLast_cons_of_ne_nil hrest, List.mem_cons] at hc
        rcases hc with hc | hc
        · have h2 := chunkLoop_ne_nil t src C r (min t.length (start + C)) hrest
          have h3 : start + C < t.length := by omega
          rw [hc]
          simp only [List.length_take, List.length_drop]
          omega
        · exact ih _ c hc
    · simp [chunkLoop, if_neg h] at hc

/-! ## Claims C4 and C5: partition coverage and truncation -/

/-- Claim C4. For every text whose trimmed length `L` is at most 200,000
characters and every `chunk_size` `C` with `⌈L/C⌉ ≤ max_chunks` — stated as
`L ≤ C * max_chunks`, which is equivalent for `C > 0` and correctly rules
out every nonempty text for `C = 0` — `chunk_text` succeeds and produces
contiguous, non-overlapping chunks: their texts concatenated in order
reproduce the trimmed input exactly, every chunk except possibly the last
has exactly `C` characters, every chunk has at most `C` characters, and
every chunk carries the caller-supplied source label. -/
theorem chunk_text_partition (text : List Char) (source : String)
    (C M : Nat) (hcap : (pyStrip text).length ≤ MAX_TEXT_LENGTH)
    (hfit : (pyStrip text).length ≤ C * M) :
    ∃ chunks, chunk_text text source C M = .ok chunks ∧
      (chunks.map Chunk.text).flatten = pyStrip text ∧
      (∀ c ∈ chunks.dropLast, c.text.length = C) ∧
      (∀ c ∈ chunks, c.text.length ≤ C) ∧
      (∀ c ∈ chunks, c.source = source) := by
  by_cases hnil : pyStrip text = []
  · refine ⟨[], ?_, ?_, ?_, ?_, ?_⟩ <;> simp [chunk_text, hnil]
  · refine ⟨chunkLoop (pyStrip text) source C 0 M, ?_, ?_, ?_, ?_, ?_⟩
    · rw [chunk_text]
      simp only [if_neg hnil, if_neg (by omega : ¬ MAX_TEXT_LENGTH < (pyStrip text).length)]
    · rw [chunkLoop_join, List.drop_zero, List.take_of_length_le hfit]
    · exact fun c hc => chunkLoop_dropLast _ _ _ _ _ c hc
    · exact fun c hc => chunkLoop_le _ _ _ _ _ c hc
    · exact fun c hc => chunkLoop_source _ _ _ _ _ c hc

/-- Witness for C4 at a concrete input: `"abcdef"` with `chunk_size = 2`
and `max_chunks = 3`. -/
theorem chunk_text_partition_witness :
    (pyStrip ['a', 'b', 'c', 'd', 'e', 'f']).length ≤ MAX_TEXT_LENGTH ∧
    (pyStrip ['a', 'b', 'c', 'd', 'e', 'f']).length ≤ 2 * 3 ∧
    ∃ chunks, chunk_text ['a', 'b', 'c', 'd', 'e', 'f'] "doc" 2 3 = .ok chunks ∧
      (chunks.map Chunk.text).flatten = pyStrip ['a', 'b', 'c', 'd', 'e', 'f'] ∧
      (∀ c ∈ chunks.dropLast, c.text.length = 2) ∧
      (∀ c ∈ chunks, c.text.length ≤ 2) ∧
      (∀ c ∈ chunks, c.source = "doc") :=
  ⟨by decide, by decide,
    chunk_text_partition ['a', 'b', 'c', 'd', 'e', 'f'] "doc" 2 3
      (by decide) (by decide)⟩

/-- Claim C5. For every text within the 200,000-character cap that would
partition into more than `max_chunks` windows of `chunk_size` characters
(`C * M < L`, i.e. `⌈L/C⌉ > M`), `chunk_text` succeeds — no error or
warning — and returns exactly `max_chunks` chunks; only the first
`C * M` characters are covered, the excess text being silently dropped. -/
theorem chunk_text_truncation (text : List Char) (source : String)
    (C M : Nat) (hcap : (pyStrip text).length ≤ MAX_TEXT_LENGTH)
    (hover : C * M < (pyStrip text).length) :
    ∃ chunks, chunk_text text source C M = .ok chunks ∧
      chunks.length = M ∧
      (chunks.map Chunk.text).flatten = (pyStrip text).take (C * M) := by
  have hnil : pyStrip text ≠ [] := by
    intro h
    rw [h] at hover
    simp at hover
  refine ⟨chunkLoop (pyStrip text) source C 0 M, ?_, ?_, ?_⟩
  · rw [chunk_text]
    simp only [if_neg hnil, if_neg (by omega : ¬ MAX_TEXT_LENGTH < (pyStrip text).length)]
  · exact chunkLoop_length_of_overflow _ _ _ _ _ (by omega)
  · rw [chunkLoop_join, List.drop_zero]

/-- Witness for C5 at a concrete input: `"abcdef"` with `chunk_size = 2`
and `max_chunks = 2` yields exactly 2 chunks covering `"abcd"`. -/
theorem chunk_text_truncation_witness :
    (pyStrip ['a', 'b', 'c', 'd', 'e', 'f']).length ≤ MAX_TEXT_LENGTH ∧
    2 * 2 < (pyStrip ['a', 'b', 'c', 'd', 'e', 'f']).length ∧
    ∃ chunks, chunk_text ['a', 'b', 'c', 'd', 'e', 'f'] "doc" 2 2 = .ok chunks ∧
      chunks.length = 2 ∧
      (chunks.map Chunk.text).flatten = (pyStrip ['a', 'b', 'c', 'd', 'e', 'f']).take (2 * 2) :=
  ⟨by decide, by decide,
    chunk_text_truncation ['a', 'b', 'c', 'd', 'e', 'f'] "doc" 2 2
      (by decide) (by decide)⟩

/-! ## Claim C2: oversize input is rejected with no partial ingestion -/

/-- Claim C2. For every input whose trimmed length exceeds 200,000
characters, `ingest_text` fails with the error message interpolating both
the actual size and the 200,000 limit (`oversizeMsg` spells the message
out), and the resulting file state is exactly the pre-call state: neither
the chunk store nor the index is written. -/
theorem ingest_text_oversize (E : List (List Char) → List Vec)
    (s : RagState) (text : List Char) (source : String)
    (h : MAX_TEXT_LENGTH < (pyStrip text).length) :
    ingest_text E s text source =
      (s, .error (oversizeMsg (pyStrip text).length)) := by
  have hnil : pyStrip text ≠ [] := by
    intro hn
    rw [hn] at h
    simp [MAX_TEXT_LENGTH] at h
  rw [ingest_text, chunk_text]
  simp only [if_neg hnil, if_pos h]

/-- Lemma: `dropWhile` is the identity on a replicated character the predicate
rejects. -/
theorem dropWhile_replicate_of_neg (p : Char → Bool) (a : Char) (hp : p a = false) :
    ∀ n, (List.replicate n a).dropWhile p = List.replicate n a := by
  intro n
  cases n with
  | zero => rfl
  | succ n => simp [List.replicate, List.dropWhile, hp]

/-- Stripping a run of a non-whitespace character is the identity. -/
theorem pyStrip_replicate (a : Char) (ha : a.isWhitespace = false) (n : Nat) :
    pyStrip (List.replicate n a) = List.replicate n a := by
  rw [pyStrip, dropWhile_replicate_of_neg _ _ ha, List.reverse_replicate,
    dropWhile_replicate_of_neg _ _ ha, List.reverse_replicate]

/-- Witness for C2: a 200,001-character input (`'a'` repeated) is rejected
with the exact message naming 200001 and 200000, leaving the state of an
empty deployment untouched. -/
theorem ingest_text_oversize_witness :
    MAX_TEXT_LENGTH < (pyStrip (List.replicate 200001 'a')).length ∧
    ingest_text (fun _ => []) { chunksFile := none, indexFile := none }
        (List.replicate 200001 'a') "doc" =
      ({ chunksFile := none, indexFile := none },
        .error (oversizeMsg (pyStrip (List.replicate 200001 'a')).length)) := by
  have hlen : MAX_TEXT_LENGTH < (pyStrip (List.replicate 200001 'a')).length := by
    rw [pyStrip_replicate 'a' (by decide), List.length_replicate]
    decide
  exact ⟨hlen, ingest_text_oversize _ _ _ _ hlen⟩

/-! ## Claim C10: ingesting whitespace-only text is a logical no-op -/

/-- Claim C10. For every source label and every text that is empty or
whitespace-only after trimming, `ingest_text` succeeds and returns 0, and
the chunk store loads the same sequence after the call as before it (the
store is re-saved with identical contents; the index is rebuilt from them
whenever they are nonempty). -/
theorem ingest_text_empty (E : List (List Char) → List Vec)
    (s : RagState) (text : List Char) (source : String)
    (h : pyStrip text = []) :
    (ingest_text E s text source).2 = .ok 0 ∧
    load_chunks (ingest_text E s text source).1 = load_chunks s := by
  rw [ingest_text, chunk_text]
  simp only [if_pos h]
  constructor
  · rfl
  · rw [List.append_nil, build_index]
    by_cases hc : load_chunks s = []
    · simp only [if_pos hc]
      simp [save_chunks, load_chunks, hc]
    · simp only [if_neg hc]
      simp [save_chunks, load_chunks]

/-- Witness for C10: ingesting `"  "` into a one-chunk store returns 0 and
leaves the loaded store unchanged. -/
theorem ingest_text_empty_witness :
    pyStrip [' ', ' '] = [] ∧
    (ingest_text (fun b => b.map fun _ => [1])
        { chunksFile := some [{ source := "doc", text := ['a'] }], indexFile := none }
        [' ', ' '] "doc2").2 = .ok 0 ∧
    load_chunks (ingest_text (fun b => b.map fun _ => [1])
        { chunksFile := some [{ source := "doc", text := ['a'] }], indexFile := none }
        [' ', ' '] "doc2").1 =
      load_chunks { chunksFile := some [{ source := "doc", text := ['a'] }], indexFile := none } :=
  ⟨by decide, ingest_text_empty _ _ _ _ (by decide)⟩

/-! ## Claim C1: index size equals store size after successful ingestion -/

/-- The batched-encoding loop emits exactly one row per input text when the
underlying model does (the 1:1 contract of `encode`). -/
theorem encodeBatches_length (E : List (List Char) → List Vec)
    (hE : ∀ b, (E b).length = b.length) (ts : List (List Char)) :
    (encodeBatches E ts).length = ts.length := by
  have H : ∀ (n : Nat) (l : List (List Char)), l.length ≤ n →
      (encodeBatches E l).length = l.length := by
    intro n
    induction n with
    | zero =>
      intro l h
      have hl : l = [] := List.length_eq_zero.mp (Nat.le_zero.mp h)
      subst hl
      simp [encodeBatches]
    | succ n ih =>
      intro l h
      cases l with
      | nil => simp [encodeBatches]
      | cons t ts' =>
        simp only [List.length_cons] at h
        rw [encodeBatches, List.length_append, hE, List.length_take,
          ih _ (by simp only [List.length_drop, List.length_cons, BATCH_SIZE]; omega)]
        simp only [List.length_drop, List.length_cons, BATCH_SIZE]
        omega
  exact H ts.length ts (le_refl _)

/-- After `save_chunks` followed by `build_index` on the same list (the
tail of `ingest_text`), loading the store returns exactly that list. -/
theorem load_build_save (E : List (List Char) → List Vec) (s : RagState)
    (l : List Chunk) :
    load_chunks (build_index E (save_chunks s l) l) = l := by
  by_cases hl : l = []
  · simp [build_index, save_chunks, load_chunks, hl]
  · simp [build_index, save_chunks, load_chunks, hl]

/-- Every state the subsystem itself can produce satisfies the
store/index relationship: an empty store means an empty (or absent)
index. -/
theorem reachable_storeIndexInv (s : RagState) (hs : Reachable s) :
    StoreIndexInv s := by
  induction hs with
  | init => intro _; rfl
  | step s E text source _ ih =>
    simp only [ingest_text]
    cases hct : chunk_text text source 800 200 with
    | error e => exact ih
    | ok new_chunks =>
      show StoreIndexInv (build_index E
        (save_chunks s (load_chunks s ++ new_chunks)) (load_chunks s ++ new_chunks))
      intro hload
      rw [load_build_save] at hload
      have h0 : load_chunks s = [] := (List.append_eq_nil.mp hload).1
      rw [hload]
      simpa [build_index, save_chunks, indexSize] using ih h0

/-- Claim C1. For every call to `ingest_text` that returns successfully, made
from any state the subsystem itself can reach, the number of rows in the
persisted index afterwards equals the number of entries loaded from the
chunk store afterwards. The embedding model is assumed to emit exactly one
vector per input text (`hE`), the 1:1 contract of `encode`; an absent
index file counts as zero rows (which only arises together with an empty
store). -/
theorem ingest_text_index_matches_store (E : List (List Char) → List Vec)
    (hE : ∀ b, (E b).length = b.length) (s : RagState) (hs : Reachable s)
    (text : List Char) (source : String) (n : Nat)
    (hok : (ingest_text E s text source).2 = .ok n) :
    indexSize (ingest_text E s text source).1 =
      (load_chunks (ingest_text E s text source).1).length := by
  have hinv := reachable_storeIndexInv s hs
  simp only [ingest_text]
  cases hct : chunk_text text source 800 200 with
  | error e =>
    simp only [ingest_text] at hok
    rw [hct] at hok
    simp at hok
  | ok new_chunks =>
    show indexSize (build_index E
        (save_chunks s (load_chunks s ++ new_chunks)) (load_chunks s ++ new_chunks)) =
      (load_chunks (build_index E
        (save_chunks s (load_chunks s ++ new_chunks)) (load_chunks s ++ new_chunks))).length
    rw [load_build_save]
    by_cases hc : load_chunks s ++ new_chunks = []
    · have h0 : load_chunks s = [] := (List.append_eq_nil.mp hc).1
      rw [hc]
      simpa [build_index, save_chunks, indexSize] using hinv h0
    · simp only [build_index, if_neg hc]
      simp only [indexSize, save_chunks, _normalize, Option.getD_some,
        List.length_map]
      rw [encodeBatches_length E hE]
      simp

/-- Witness for C1: the very first ingestion of `"a"` into a fresh
deployment (one vector per text) yields matching index and store sizes. -/
theorem ingest_text_index_matches_store_witness :
    (ingest_text (fun b => b.map fun _ => [1])
        { chunksFile := none, indexFile := none } ['a'] "doc").2 = .ok 1 ∧
    indexSize (ingest_text (fun b => b.map fun _ => [1])
        { chunksFile := none, indexFile := none } ['a'] "doc").1 =
      (load_chunks (ingest_text (fun b => b.map fun _ => [1])
        { chunksFile := none, indexFile := none } ['a'] "doc").1).length := by
  have hok : (ingest_text (fun b => b.map fun _ => [1])
      { chunksFile := none, indexFile := none } ['a'] "doc").2 = .ok 1 := rfl
  exact ⟨hok,
    ingest_text_index_matches_store _ (fun b => by simp) _ Reachable.init
      _ _ 1 hok⟩

/-! ## Claim C6: search on an empty corpus returns empty, not an error -/

/-- Claim C6. For every query, if the chunk store loads as empty or the index
file does not exist, `search` returns the empty sequence (it is a total
function: no error is possible). In particular this covers a fresh
deployment before any ingestion. -/
theorem search_empty_corpus (E : List (List Char) → List Vec)
    (I : List Vec → List Vec → Nat → List (ℝ × Int))
    (s : RagState) (query : List Char) (top_k : Nat)
    (h : load_chunks s = [] ∨ s.indexFile = none) :
    search E I s query top_k = [] := by
  simp only [search]
  rw [if_pos h]

/-- Witness for C6: search before any ingest (no files) returns empty. -/
theorem search_empty_corpus_witness :
    search (fun _ => []) (fun _ _ _ => [])
      { chunksFile := none, indexFile := none } ['q'] 5 = [] :=
  search_empty_corpus _ _ _ _ _ (Or.inl rfl)

/-! ## Claim C7: hydration silently skips out-of-bounds index positions -/

/-- Hydration is exactly: keep the in-bounds positions, in order, and map
each to a result record. Out-of-bounds pairs (negative or `≥` the store
length) contribute nothing, and the function is total (nothing raises). -/
theorem hydrate_eq_filter_map (chunks : List Chunk) (pairs : List (ℝ × Int)) :
    hydrate chunks pairs =
      (pairs.filter fun p => 0 ≤ p.2 ∧ p.2 < (chunks.length : Int)).map
        fun p => { score := p.1
                   source := (chunks.getD p.2.toNat default).source
                   text := (chunks.getD p.2.toNat default).text } := by
  induction pairs with
  | nil => rfl
  | cons p ps ih =>
    by_cases h : p.2 < 0 ∨ (chunks.length : Int) ≤ p.2
    · have hb : ¬ (0 ≤ p.2 ∧ p.2 < (chunks.length : Int)) := by omega
      rw [hydrate, List.filterMap_cons, if_pos h, List.filter_cons,
        if_neg (by simpa using hb)]
      exact ih
    · have hb : 0 ≤ p.2 ∧ p.2 < (chunks.length : Int) := by omega
      rw [hydrate, List.filterMap_cons, if_neg h, List.filter_cons,
        if_pos (by simpa using hb), List.map_cons]
      exact congrArg _ ih

/-- Claim C7. Whenever `search` reaches its hydration phase (nonempty store,
index file present), its result is obtained from the pairs the index
returned by dropping exactly the out-of-bounds positions (negative or `≥`
the loaded store's length) and hydrating the remaining ones to
`{score, source, text}` records, in the order the index produced them;
no error is ever raised (the function is total). -/
theorem search_hydration_skips_stale (E : List (List Char) → List Vec)
    (I : List Vec → List Vec → Nat → List (ℝ × Int))
    (s : RagState) (query : List Char) (top_k : Nat)
    (h1 : load_chunks s ≠ []) (h2 : s.indexFile ≠ none) :
    search E I s query top_k =
      ((I (s.indexFile.getD []) (_normalize (E [query])) top_k).filter
          fun p => 0 ≤ p.2 ∧ p.2 < ((load_chunks s).length : Int)).map
        fun p => { score := p.1
                   source := ((load_chunks s).getD p.2.toNat default).source
                   text := ((load_chunks s).getD p.2.toNat default).text } := by
  simp only [search]
  rw [if_neg (by tauto : ¬ (load_chunks s = [] ∨ s.indexFile = none))]
  exact hydrate_eq_filter_map _ _

/-- Witness for C7: a one-chunk store with an index lookup returning one
in-bounds position, one `-1` padding position, and one stale position `5`:
the two out-of-bounds pairs are skipped and exactly the in-bounds one is
hydrated. -/
theorem search_hydration_skips_stale_witness :
    load_chunks { chunksFile := some [{ source := "doc", text := ['a'] }], indexFile := some [[1]] } ≠ [] ∧
    (search (fun _ => [[1]])
        (fun _ _ _ => [((1 : ℝ), (0 : Int)), (1/2, -1), (1/4, 5)])
        { chunksFile := some [{ source := "doc", text := ['a'] }], indexFile := some [[1]] }
        ['q'] 3).length = 1 := by
  constructor
  · decide
  · rw [search_hydration_skips_stale _ _ _ _ _ (by decide) (Option.some_ne_none _)]
    rw [List.length_map]
    rfl

/-! ## Claim C8: batched embedding is order-preserving and batch-invariant -/

/-- The batched loop computes the per-text map whenever the model encodes
each text of a batch independently. -/
theorem encodeBatches_eq_map (E : List (List Char) → List Vec)
    (f : List Char → Vec) (hE : ∀ b, E b = b.map f) (ts : List (List Char)) :
    encodeBatches E ts = ts.map f := by
  have H : ∀ (n : Nat) (l : List (List Char)), l.length ≤ n →
      encodeBatches E l = l.map f := by
    intro n
    induction n with
    | zero =>
      intro l h
      have hl : l = [] := List.length_eq_zero.mp (Nat.le_zero.mp h)
      subst hl
      simp [encodeBatches]
    | succ n ih =>
      intro l h
      cases l with
      | nil => simp [encodeBatches]
      | cons t ts' =>
        simp only [List.length_cons] at h
        rw [encodeBatches, hE,
          ih _ (by simp only [List.length_drop, List.length_cons, BATCH_SIZE]; omega),
          ← List.map_append, List.take_append_drop]
  exact H ts.length ts (le_refl _)

/-- Claim C8. Assuming the model's `encode` is a pure per-text function
(`E b = b.map f`), the batched embedding loop of `build_index` preserves
order and is batch-invariant: its output is `ts.map f`, the same as
encoding all texts in a single batch (`E ts`); the `i`-th output row is
`f` of the `i`-th input text; and `build_index` persists exactly the
normalization of these per-text embeddings. -/
theorem build_index_batch_invariant (E : List (List Char) → List Vec)
    (f : List Char → Vec) (hE : ∀ b, E b = b.map f) (ts : List (List Char)) :
    encodeBatches E ts = ts.map f ∧
    encodeBatches E ts = E ts ∧
    (∀ i, ∀ h : i < ts.length, ∃ h2 : i < (encodeBatches E ts).length,
      (encodeBatches E ts).get ⟨i, h2⟩ = f (ts.get ⟨i, h⟩)) ∧
    (∀ (s : RagState) (chunks : List Chunk), chunks ≠ [] →
      (build_index E s chunks).indexFile =
        some (_normalize ((chunks.map Chunk.text).map f))) := by
  have hmap := encodeBatches_eq_map E f hE ts
  refine ⟨hmap, by rw [hmap, hE], ?_, ?_⟩
  · intro i h
    have h2 : i < (encodeBatches E ts).length := by
      rw [hmap, List.length_map]
      exact h
    refine ⟨h2, ?_⟩
    have := List.get_of_eq hmap ⟨i, h2⟩
    rw [this]
    simp
  · intro s chunks hc
    rw [build_index, if_neg hc]
    simp only [encodeBatches_eq_map E f hE]

/-- Witness for C8: a two-text sequence with the model `f` returning the
text length as a one-entry vector. -/
theorem build_index_batch_invariant_witness :
    encodeBatches (fun b => b.map fun t => [(t.length : ℝ)]) [['a'], ['b', 'c']] =
      [['a'], ['b', 'c']].map (fun t => [(t.length : ℝ)]) :=
  (build_index_batch_invariant (fun b => b.map fun t => [(t.length : ℝ)])
    (fun t => [(t.length : ℝ)]) (fun _ => rfl) [['a'], ['b', 'c']]).1

/-! ## Claim C9: L2 normalization -/

/-- The epsilon of `_normalize` is positive. -/
theorem eps_pos : (0 : ℝ) < eps := by
  rw [eps]
  norm_num

/-- A sum of squares is nonnegative. -/
theorem sumSq_nonneg (v : Vec) : 0 ≤ ((v.map fun x => x ^ 2)).sum := by
  apply List.sum_nonneg
  intro x hx
  rcases List.mem_map.mp hx with ⟨y, _, hy⟩
  rw [← hy]
  exact sq_nonneg y

/-- The L2 norm is nonnegative. -/
theorem l2norm_nonneg (v : Vec) : 0 ≤ l2norm v :=
  Real.sqrt_nonneg _

/-- The denominator used by `_normalize` is strictly positive for every
vector, including the zero vector and the empty one: no division by zero
can occur. -/
theorem normalize_denom_pos (v : Vec) : 0 < l2norm v + eps :=
  add_pos_of_nonneg_of_pos (l2norm_nonneg v) eps_pos

/-- Summing after dividing every mapped entry by a constant divides the
sum. -/
theorem list_sum_map_div (l : List ℝ) (g : ℝ → ℝ) (c : ℝ) :
    (l.map fun x => g x / c).sum = (l.map g).sum / c := by
  induction l with
  | nil => simp
  | cons x xs ih =>
    simp only [List.map_cons, List.sum_cons, ih, add_div]

/-- Scaling a vector by `1/c` (with `c ≥ 0`) scales its L2 norm by `1/c`. -/
theorem l2norm_map_div (v : Vec) (c : ℝ) (hc : 0 ≤ c) :
    l2norm (v.map fun x => x / c) = l2norm v / c := by
  unfold l2norm
  rw [List.map_map]
  have h1 : ((fun x => x ^ 2) ∘ fun x => x / c) = fun x => x ^ 2 / c ^ 2 := by
    funext x
    simp [div_pow]
  rw [h1, list_sum_map_div v (fun x => x ^ 2) (c ^ 2),
    Real.sqrt_div (sumSq_nonneg v), Real.sqrt_sq hc]

/-- The exact norm of a normalized row: `‖v‖ / (‖v‖ + ε)`. -/
theorem l2norm_normalizeRow (v : Vec) :
    l2norm (normalizeRow v) = l2norm v / (l2norm v + eps) := by
  rw [normalizeRow, l2norm_map_div v _ (normalize_denom_pos v).le]

/-- The norm of a singleton nonnegative vector. -/
theorem l2norm_single (x : ℝ) (hx : 0 ≤ x) : l2norm [x] = x := by
  rw [l2norm]
  simp only [List.map_cons, List.map_nil, List.sum_cons, List.sum_nil, add_zero]
  exact Real.sqrt_sq hx

/-- Claim C9, counterexample. The claim says every *nonzero* input vector
normalizes to L2 norm within a small epsilon of 1.0. The one-entry vector
`[1e-12]` is nonzero (its norm is `1e-12 ≠ 0`), yet its normalized norm is
`1e-12 / (1e-12 + 1e-12) = 1/2`, at distance exactly `1/2` from 1.0 — not
within any tolerance below `1/2`. -/
theorem normalize_tiny_vector_cex :
    l2norm [eps] ≠ 0 ∧ |l2norm (normalizeRow [eps]) - 1| = 1 / 2 := by
  have he : (0 : ℝ) < eps := eps_pos
  have h1 : l2norm [eps] = eps := l2norm_single eps he.le
  refine ⟨by rw [h1]; exact he.ne', ?_⟩
  rw [l2norm_normalizeRow, h1]
  have h2 : eps / (eps + eps) = 1 / 2 := by
    rw [← two_mul]
    rw [div_eq_div_iff (by positivity) (by norm_num)]
    ring
  rw [h2]
  rw [abs_of_nonpos (by norm_num)]
  norm_num

/-- Claim C9, amended. Every vector inserted into the index by `build_index`
and the query matrix used by `search` go through `_normalize`, which
divides each row by (its L2 norm + 1e-12); the denominator is strictly
positive for every row (no division by zero, even for the zero vector);
the resulting row has L2 norm exactly `‖v‖ / (‖v‖ + 1e-12) < 1`; and for
every row of norm at least 1 — rather than every nonzero row — that norm
is within 1e-12 of 1.0. -/
theorem normalize_rows_near_unit (v : Vec) :
    0 < l2norm v + eps ∧
    l2norm (normalizeRow v) = l2norm v / (l2norm v + eps) ∧
    l2norm (normalizeRow v) < 1 ∧
    (1 ≤ l2norm v → |l2norm (normalizeRow v) - 1| ≤ eps) ∧
    (∀ (E : List (List Char) → List Vec) (s : RagState) (chunks : List Chunk),
      chunks ≠ [] →
      (build_index E s chunks).indexFile =
        some ((encodeBatches E (chunks.map Chunk.text)).map normalizeRow)) ∧
    (∀ (E : List (List Char) → List Vec) (query : List Char),
      ∀ r ∈ _normalize (E [query]), ∃ u, r = normalizeRow u) := by
  have hc : 0 < l2norm v + eps := normalize_denom_pos v
  have hn : l2norm (normalizeRow v) = l2norm v / (l2norm v + eps) :=
    l2norm_normalizeRow v
  have hlt : l2norm (normalizeRow v) < 1 := by
    rw [hn, div_lt_one hc]
    linarith [eps_pos]
  refine ⟨hc, hn, hlt, ?_, ?_, ?_⟩
  · intro h1
    have hc1 : 1 ≤ l2norm v + eps := by linarith [eps_pos]
    have hle1 : l2norm (normalizeRow v) ≤ 1 := le_of_lt hlt
    have hsum : l2norm v / (l2norm v + eps) + eps / (l2norm v + eps) = 1 := by
      rw [div_add_div_same]
      exact div_self hc.ne'
    rw [abs_of_nonpos (by linarith)]
    have : eps / (l2norm v + eps) ≤ eps := div_le_self eps_pos.le hc1
    linarith
  · intro E s chunks hchunks
    rw [build_index, if_neg hchunks]
    rfl
  · intro E query r hr
    rcases List.mem_map.mp hr with ⟨u, _, hu⟩
    exact ⟨u, hu.symm⟩

/-- Witness for the amended C9 at the concrete unit vector `[1]`. -/
theorem normalize_rows_near_unit_witness :
    |l2norm (normalizeRow [(1 : ℝ)]) - 1| ≤ eps := by
  refine (normalize_rows_near_unit [(1 : ℝ)]).2.2.2.1 ?_
  rw [l2norm_single 1 (by norm_num)]

/-! ## Claim C3: `save_chunks` write discipline -/

/-- After the optional `makedirs`/`openTrunc` prefix, each `writeRecord`
appends one record to the store file. -/
theorem runOps_writes (cs : List Chunk) :
    ∀ (fs : Fs) (pre : List Chunk), fs CHUNKS_PATH = some pre →
      runOps fs (cs.map (FsOp.writeRecord CHUNKS_PATH)) CHUNKS_PATH =
        some (pre ++ cs) := by
  induction cs with
  | nil =>
    intro fs pre h
    simpa [runOps] using h
  | cons c cs ih =>
    intro fs pre h
    have h' : (applyOp fs (FsOp.writeRecord CHUNKS_PATH c)) CHUNKS_PATH =
        some (pre ++ [c]) := by
      simp [applyOp, h]
    have hrec := ih (applyOp fs (FsOp.writeRecord CHUNKS_PATH c)) (pre ++ [c]) h'
    simp only [runOps, List.map_cons, List.foldl_cons]
    simp only [runOps] at hrec
    rw [hrec]
    simp

/-- Claim C3, counterexample. `save_chunks` truncates the final store file in
place (`open(CHUNKS_PATH, "w")`) before writing the records: a crash after
the truncation (running only the first 2 of its file operations) leaves
the store holding `some []` — neither the old contents (one record) nor
the new contents (two records) — so a crash mid-write does leave a
truncated store, and the trace contains no temp-file rename. -/
theorem save_chunks_not_atomic_cex :
    runOps (fun q => if q = CHUNKS_PATH then some [{ source := "doc", text := ['a'] }] else none)
        ((save_chunks_trace [{ source := "doc", text := ['a'] }, { source := "doc", text := ['b'] }]).take 2)
        CHUNKS_PATH = some [] ∧
    some ([] : List Chunk) ≠ some [{ source := "doc", text := ['a'] }] ∧
    some ([] : List Chunk) ≠
      some [{ source := "doc", text := ['a'] }, { source := "doc", text := ['b'] }] ∧
    ((save_chunks_trace [{ source := "doc", text := ['a'] }, { source := "doc", text := ['b'] }]).map
        FsOp.isRename).all (fun b => b = false) = true := by
  refine ⟨?_, by decide, by decide, by decide⟩
  decide

/-- Claim C3, amended. `save_chunks(chunks)` replaces the persisted sequence
by truncating the store file in place and appending one record per chunk,
in order: a completed run leaves exactly the new sequence, and no rename
(hence no write-to-temp-then-rename discipline) occurs; but an
interruption after `k ≥ 2` operations leaves the file holding exactly the
first `k - 2` new records — a truncated store that need not match the old
or the new contents. -/
theorem save_chunks_trace_spec (chunks : List Chunk) (fs : Fs) (k : Nat)
    (hk : 2 ≤ k) :
    (∀ op ∈ save_chunks_trace chunks, op.isRename = false) ∧
    runOps fs (save_chunks_trace chunks) CHUNKS_PATH = some chunks ∧
    runOps fs ((save_chunks_trace chunks).take k) CHUNKS_PATH =
      some (chunks.take (k - 2)) := by
  have hopen : ∀ (g : Fs),
      (applyOp (applyOp g (FsOp.makedirs STORAGE_DIR)) (FsOp.openTrunc CHUNKS_PATH))
        CHUNKS_PATH = some [] := by
    intro g
    simp [applyOp]
  refine ⟨?_, ?_, ?_⟩
  · intro op hop
    simp only [save_chunks_trace, List.mem_cons, List.mem_map] at hop
    rcases hop with h | h | ⟨c, _, h⟩
    · rw [h]; rfl
    · rw [h]; rfl
    · rw [← h]; rfl
  · simp only [save_chunks_trace, runOps, List.foldl_cons]
    have := runOps_writes chunks _ _ (hopen fs)
    simpa [runOps] using this
  · obtain ⟨m, rfl⟩ : ∃ m, k = m + 2 := ⟨k - 2, by omega⟩
    simp only [save_chunks_trace, List.take_succ_cons, runOps, List.foldl_cons]
    rw [← List.map_take]
    have := runOps_writes (chunks.take m) _ _ (hopen fs)
    simp only [runOps] at this
    rw [this]
    simp

/-- Witness for the amended C3: saving a one-record store over a missing
file, interrupted right after the truncation (`k = 2`), leaves an empty
file; run to completion it leaves exactly the record. -/
theorem save_chunks_trace_spec_witness :
    (∀ op ∈ save_chunks_trace [{ source := "doc", text := ['a'] }], op.isRename = false) ∧
    runOps (fun _ => none) (save_chunks_trace [{ source := "doc", text := ['a'] }])
      CHUNKS_PATH = some [{ source := "doc", text := ['a'] }] ∧
    runOps (fun _ => none) ((save_chunks_trace [{ source := "doc", text := ['a'] }]).take 2)
      CHUNKS_PATH = some ([{ source := "doc", text := ['a'] }].take (2 - 2)) :=
  save_chunks_trace_spec [{ source := "doc", text := ['a'] }] (fun _ => none) 2 (by decide)

end Rag
